import Mathlib

/-!
Verification of the WebDev-Tools deployment engine.

This file gives a shallow embedding of the deployment core of the
repository — the diff engine, the tar batch packer, the retry executor,
the symlink-strategy finalization (symlink swap + release pruning) and
the cross-release preserve step — and proves the specified properties
about those embeddings.

Sources embedded:
- `src/Deploy/src/core/deployer.mjs` (`Deployer.run`, symlink strategy)
- `src/Deploy/src/utils/retry.mjs` (`withRetry`)
- `src/Compiled/NetDeploy/Main/source/Core/DiffEngine.cs` (`GetChangedFilesAsync`)
- `src/Compiled/NetDeploy/Main/source/Strategies/TarDeployment.cs` (`CreateBatches`)
- `src/unnamed/part_013` (`createBatches`, JS)
- `src/NetDeploy/Main/source/Core/Deployer.cs`
  (`PreserveFilesFromPreviousRelease`, `NormalizeAndValidatePreserveFiles`,
   `EscapeForBashDoubleQuotes`)
-/

namespace WebDevTools

/-- A file entry as produced by a local walk: a forward-slash relative
path together with its size in bytes (`{relativePath, sizeBytes}`). -/
structure FileEntry where
  relPath : String
  size : Nat
deriving DecidableEq, Repr

/-! ## Batch packer

`src/unnamed/part_013`, `createBatches(files, maxBytes)` and
`src/Compiled/NetDeploy/Main/source/Strategies/TarDeployment.cs`,
`TarDeployment.CreateBatches(files)` share the same loop body:
before adding a file, if the current batch is non-empty and
`currentSize + file.size` exceeds the limit, close the current batch;
then append the file to the current batch.  The JS wrapper special-cases
`maxBytes <= 0` as a single batch; the C# wrapper does not. -/

/-- The shared greedy loop of both batch packers: walk the remaining
files, carrying the current batch and its cumulative size. -/
def batchGo (limit : Nat) : List FileEntry → List FileEntry → Nat → List (List FileEntry)
  | [], cur, _ => if cur.isEmpty then [] else [cur]
  | f :: rest, cur, sz =>
      if !cur.isEmpty && decide (sz + f.size > limit) then
        cur :: batchGo limit rest [f] f.size
      else
        batchGo limit rest (cur ++ [f]) (sz + f.size)

/-- Function `createBatches(files, maxBytes)` from `src/unnamed/part_013`:
`if (maxBytes <= 0) return [files];` then the greedy loop. -/
def createBatches (files : List FileEntry) (maxBytes : Int) : List (List FileEntry) :=
  if maxBytes ≤ 0 then [files]
  else batchGo maxBytes.toNat files [] 0

/-- Method `TarDeployment.CreateBatches` from
`src/Compiled/NetDeploy/Main/source/Strategies/TarDeployment.cs`:
the same greedy loop with `limitBytes = BatchSizeMB * 1024 * 1024`
and no special case for a zero limit. -/
def createBatchesCs (files : List FileEntry) (limitBytes : Nat) : List (List FileEntry) :=
  batchGo limitBytes files [] 0

/-- Cumulative size of a batch. -/
def sumSizes (b : List FileEntry) : Nat := (b.map FileEntry.size).sum

/-- A batch is within bounds for limit `L`: its total size is at most
`L`, or it is a single file whose own size exceeds `L`. -/
def batchOk (L : Nat) (b : List FileEntry) : Prop :=
  sumSizes b ≤ L ∨ ∃ f, b = [f] ∧ L < f.size

instance (L : Nat) (b : List FileEntry) : Decidable (batchOk L b) := by
  unfold batchOk
  cases b with
  | nil => exact .isTrue (Or.inl (by simp [sumSizes]))
  | cons f rest =>
    cases rest with
    | nil =>
      exact decidable_of_iff (sumSizes [f] ≤ L ∨ L < f.size)
        (by constructor
            · rintro (h | h)
              · exact Or.inl h
              · exact Or.inr ⟨f, rfl, h⟩
            · rintro (h | ⟨g, hg, h⟩)
              · exact Or.inl h
              · cases hg; exact Or.inr h)
    | cons g rest' =>
      exact decidable_of_iff (sumSizes (f :: g :: rest') ≤ L)
        (by constructor
            · exact Or.inl
            · rintro (h | ⟨x, hx, _⟩)
              · exact h
              · cases hx)

/-! ## Diff engine

`DiffEngine.GetChangedFilesAsync` from
`src/Compiled/NetDeploy/Main/source/Core/DiffEngine.cs`: the remote
listing is loaded into a dictionary (`remoteFiles[path] = size`, later
lines overwriting earlier ones), then each local entry is kept iff its
relative path is not in the dictionary or the recorded size differs. -/

/-- The remote dictionary built from the parsed `path|size` listing by
repeated assignment: the last occurrence of a path wins. -/
def buildRemote (R : List (String × Nat)) : String → Option Nat :=
  R.foldl (fun acc p => fun k => if k = p.1 then some p.2 else acc k) (fun _ => none)

/-- The local-entry test of `GetChangedFilesAsync`:
`!remoteFiles.TryGetValue(relPath, out remoteSize) || remoteSize != info.Length`. -/
def isChanged (remote : String → Option Nat) (f : FileEntry) : Bool :=
  match remote f.relPath with
  | none => true
  | some s => decide (s ≠ f.size)

/-- The change set of `GetChangedFilesAsync`: local entries, in
local-walk order, filtered by `isChanged`. -/
def getChangedFiles (L : List FileEntry) (remote : String → Option Nat) : List FileEntry :=
  L.filter (isChanged remote)

/-! ## Retry executor

`withRetry(fn, options)` from `src/Deploy/src/utils/retry.mjs`:
a loop that invokes `fn`; on success it returns; on failure it
increments `attempt`, rethrows once `attempt > retries`, and otherwise
sleeps for the backoff delay and loops.  The transient-connection
classifier `isConnectionError` is computed inside the catch block. -/

/-- Holds (`true`) iff the character list `p` is an initial segment of `l`. -/
def listStartsWith : List Char → List Char → Bool
  | _, [] => true
  | [], _ :: _ => false
  | c :: cs, p :: ps => c = p && listStartsWith cs ps

/-- Holds (`true`) iff the character list `p` occurs contiguously in `l`. -/
def listContainsSub : List Char → List Char → Bool
  | [], p => p.isEmpty
  | c :: cs, p => listStartsWith (c :: cs) p || listContainsSub cs p

/-- Holds (`true`) iff `pat` occurs as a substring of `hay`. -/
def containsSub (hay pat : String) : Bool :=
  listContainsSub hay.data pat.data

/-- Lower-case a string character by character. -/
def strToLower (s : String) : String :=
  ⟨s.data.map Char.toLower⟩

/-- Membership of a character in a string. -/
def strContains (s : String) (c : Char) : Bool :=
  s.data.contains c

/-- Holds (`true`) iff the string starts with the character `c`. -/
def startsWithChar (s : String) (c : Char) : Bool :=
  match s.data with
  | [] => false
  | a :: _ => a = c

/-- Strip leading and trailing whitespace, as `entry.Trim()` does. -/
def strTrim (s : String) : String :=
  ⟨((s.data.dropWhile Char.isWhitespace).reverse.dropWhile Char.isWhitespace).reverse⟩

/-- The transient-connection classifier of `withRetry`: the
case-insensitive regex
`/ECONNRESET|ETIMEDOUT|Connection lost|Socket closed|Broken pipe|Not connected|Failure/i`
applied to the error message. -/
def isConnectionError (msg : String) : Bool :=
  let m := strToLower msg
  containsSub m "econnreset" || containsSub m "etimedout" ||
  containsSub m "connection lost" || containsSub m "socket closed" ||
  containsSub m "broken pipe" || containsSub m "not connected" ||
  containsSub m "failure"

/-- The `withRetry` loop.  The operation is modelled as an
attempt-indexed outcome function `fn : Nat → Except String α`
(`fn i` is the result of the `i`-th invocation, 0-based); `remaining`
counts the failures the loop may still absorb before rethrowing
(`retries - attempt` in the source).  Returns the final outcome
together with the total number of invocations of `fn`. -/
def withRetryAux (fn : Nat → Except String α) (i : Nat) :
    Nat → Except String α × Nat
  | 0 =>
    (match fn i with
     | .ok a => (.ok a, i + 1)
     | .error e => (.error e, i + 1))
  | r + 1 =>
    (match fn i with
     | .ok a => (.ok a, i + 1)
     | .error _ => withRetryAux fn (i + 1) r)

/-- Entry point `withRetry(fn, options)`: run the loop from attempt 0 with
`retries` absorbable failures, returning the outcome and the number of
invocations of `fn`. -/
def withRetry (fn : Nat → Except String α) (retries : Nat) : Except String α × Nat :=
  withRetryAux fn 0 retries

/-! ## preserveFiles validation

`Deployer.NormalizeAndValidatePreserveFiles` from
`src/NetDeploy/Main/source/Core/Deployer.cs`: whitespace-only entries
are skipped; each remaining entry is trimmed and backslashes replaced
by forward slashes; the result is rejected (exception) if it starts
with `/`, contains `..`, or contains a newline, carriage return or NUL
character; otherwise it is collected. -/

/-- Normalization `entry.Trim().Replace(backslash, slash)` applied to each entry. -/
def normalizeEntry (entry : String) : String :=
  ⟨(strTrim entry).data.map (fun ch => if ch = '\\' then '/' else ch)⟩

/-- The rejection test applied to a normalized entry `p`: starts with
slash, contains a `..` substring, or contains a newline, carriage
return, or NUL character. -/
def entryBad (p : String) : Bool :=
  startsWithChar p '/' || containsSub p ".." ||
  strContains p '\x0a' || strContains p '\x0d' || strContains p '\x00'

/-- Method `NormalizeAndValidatePreserveFiles(preserveFiles)`: the validation
loop, with the thrown exception modelled as `Except.error`. -/
def normalizeAndValidatePreserveFiles : List String → Except String (List String)
  | [] => .ok []
  | entry :: rest =>
    if strTrim entry = "" then normalizeAndValidatePreserveFiles rest
    else
      let p := normalizeEntry entry
      if startsWithChar p '/' then
        .error ("preserveFiles entry must be relative, got " ++ entry)
      else if containsSub p ".." then
        .error ("preserveFiles entry must not contain .., got " ++ entry)
      else if strContains p '\x0a' || strContains p '\x0d' || strContains p '\x00' then
        .error ("preserveFiles entry contains invalid characters, got " ++ entry)
      else
        match normalizeAndValidatePreserveFiles rest with
        | .ok ps => .ok (p :: ps)
        | .error e => .error e

/-- Method `Deployer.EscapeForBashDoubleQuotes`: escape backslash, double
quote, dollar and backtick for a double-quoted shell context. -/
def escapeForBashDoubleQuotes (v : String) : String :=
  v.data.foldl (fun acc c =>
    if c = '\\' then acc ++ "\\\\"
    else if c = '"' then acc ++ "\\\""
    else if c = '$' then acc ++ "\\$"
    else if c = Char.ofNat 96 then acc ++ "\\" ++ String.singleton (Char.ofNat 96)
    else acc.push c) ""

/-- The front of `Deployer.PreserveFilesFromPreviousRelease`: validate
the entries first; only when validation succeeds (and is non-empty) is
the remote preserve command string constructed. -/
def preservePlan (remoteDir targetDir : String) (preserveDir : Option String)
    (entries : List String) : Except String (Option String) :=
  match normalizeAndValidatePreserveFiles entries with
  | .error e => .error e
  | .ok ps =>
    if ps.isEmpty then .ok none
    else
      let filesList := String.intercalate " "
        (ps.map (fun f => "\"" ++ escapeForBashDoubleQuotes f ++ "\""))
      .ok (some
        ("remoteDir=\"" ++ escapeForBashDoubleQuotes remoteDir ++ "\"; " ++
         "targetDir=\"" ++ escapeForBashDoubleQuotes targetDir ++ "\"; " ++
         "preserveDir=\"" ++
           (match preserveDir with
            | some pd => escapeForBashDoubleQuotes (pd.dropRightWhile (fun c => c = '/'))
            | none => "") ++ "\"; " ++
         "active=\"\"; " ++
         "active=$(readlink -f -- \"$remoteDir\" 2>/dev/null || true); " ++
         "if [ -z \"$active\" ]; then active=\"$remoteDir\"; fi; " ++
         "echo \"[preserve] active=$active\"; " ++
         "for f in " ++ filesList ++ "; do " ++
         "src=\"\"; dst=\"$targetDir/$f\"; " ++
         "if [ -n \"$preserveDir\" ] && [ -e \"$preserveDir/$f\" ]; then src=\"$preserveDir/$f\"; " ++
         "elif [ -e \"$active/$f\" ]; then src=\"$active/$f\"; fi; " ++
         "if [ -z \"$src\" ]; then echo \"[preserve] missing: $f\"; continue; fi; " ++
         "if [ -e \"$dst\" ]; then echo \"[preserve] exists: $f\"; continue; fi; " ++
         "mkdir -p -- \"$(dirname -- \"$dst\")\"; " ++
         "cp -a -- \"$src\" \"$dst\"; " ++
         "echo \"[preserve] copied: $f\"; " ++
         "done"))

/-! ## Preserve-step filesystem semantics

The remote filesystem is modelled as an association list from full
POSIX paths to file contents; `fsLookup` (first match) plays the role
of the shell `[ -e path ]` existence test and of reading a file.

The C# preserve loop (the shell script built by
`Deployer.PreserveFilesFromPreviousRelease`) runs, for each entry `f`:
choose `src = preserveDir/f` if `preserveDir` is set and that path
exists, else `active/f` if it exists, else skip (`continue`); skip if
the destination `targetDir/f` already exists; otherwise
`cp -a src dst`.

The JS preserve loop (`Deployer.run` step 4,
`src/Deploy/src/core/deployer.mjs`) runs, for each entry `f`, the
remote command `[ -e "$src" ] && cp -rp "$src" "$dest" || true` with
`src = sourceBase/f`, `dest = targetUploadDir/f`: a missing source is
skipped, but an existing destination regular file is overwritten by
`cp -rp`. -/

/-- Join a directory and a relative path with `/`. -/
def pathJoin (a b : String) : String := a ++ "/" ++ b

/-- Lookup a path in the association-list filesystem (first match). -/
def fsLookup (fs : List (String × String)) (p : String) : Option String :=
  match fs with
  | [] => none
  | (q, c) :: rest => if p = q then some c else fsLookup rest p

/-- Source-selection of the C# preserve script: `preserveDir/f` when
configured and existing, else `active/f` when existing, else none. -/
def sourceFor (fs : List (String × String)) (preserveDir : Option String)
    (active f : String) : Option String :=
  match preserveDir with
  | some pd =>
    if (fsLookup fs (pathJoin pd f)).isSome then some (pathJoin pd f)
    else if (fsLookup fs (pathJoin active f)).isSome then some (pathJoin active f)
    else none
  | none =>
    if (fsLookup fs (pathJoin active f)).isSome then some (pathJoin active f)
    else none

/-- One iteration of the C# preserve script loop body. -/
def preserveEntryCs (preserveDir : Option String) (active target : String)
    (fs : List (String × String)) (f : String) : List (String × String) :=
  match sourceFor fs preserveDir active f with
  | none => fs
  | some src =>
    if (fsLookup fs (pathJoin target f)).isSome then fs
    else
      match fsLookup fs src with
      | some c => fs ++ [(pathJoin target f, c)]
      | none => fs

/-- The whole C# preserve script: fold the loop over the validated
entries.  The script never exits non-zero for a missing source or an
existing destination (it uses `continue`), so it is a total function
on the filesystem. -/
def preserveRunCs (preserveDir : Option String) (active target : String)
    (files : List String) (fs : List (String × String)) : List (String × String) :=
  files.foldl (preserveEntryCs preserveDir active target) fs

/-- One iteration of the JS preserve loop:
`[ -e "$src" ] && cp -rp "$src" "$dest" || true`, where `cp -rp`
overwrites an existing destination regular file. -/
def preserveEntryJs (sourceBase target : String)
    (fs : List (String × String)) (f : String) : List (String × String) :=
  match fsLookup fs (pathJoin sourceBase f) with
  | none => fs
  | some c => (pathJoin target f, c) :: fs

/-- The JS preserve loop over all `preserveFiles` entries (run only
when `sourceBase` exists remotely). -/
def preserveRunJs (sourceBase target : String)
    (files : List String) (fs : List (String × String)) : List (String × String) :=
  files.foldl (preserveEntryJs sourceBase target) fs

/-- The remote command the JS preserve loop builds for one entry
(`src/Deploy/src/core/deployer.mjs`, line 102): the template literal
interpolates the joined source and destination paths with no
validation of any kind. -/
def preserveCommandJs (src dest : String) : String :=
  "[ -e \"" ++ src ++ "\" ] && cp -rp \"" ++ src ++ "\" \"" ++ dest ++ "\" || true"

/-! ## Symlink-strategy run: swap and pruning

`Deployer.run` from `src/Deploy/src/core/deployer.mjs`, steps 3-5 of
the symlink strategy.  The remote state is modelled at the granularity
of the `releasesRoot` listing: `link` is the release name the
`remoteDir` symlink currently resolves to, and `entries` is
`client.list(releasesRoot)` (name, entry type, and the files of that release
for frame reasoning). -/

/-- One entry of the `releasesRoot` listing, with the files it
contains (relative path, content). -/
structure RemoteEntry where
  name : String
  etype : Char
  files : List (String × String)
deriving DecidableEq, Repr

/-- The remote state seen by the symlink strategy. -/
structure SymlinkState where
  link : String
  entries : List RemoteEntry
deriving DecidableEq, Repr

/-- The regex `/^\d{14}$/` of the pruning step. -/
def is14DigitName (s : String) : Bool :=
  s.length = 14 && s.toList.all Char.isDigit

/-- The pruning filter: `r.type === 'd' && /^\d{14}$/.test(r.name)`. -/
def releaseDirTest (e : RemoteEntry) : Bool :=
  e.etype = 'd' && is14DigitName e.name

/-- Insert a name into a descending-sorted list of names. -/
def insertDesc (x : String) : List String → List String
  | [] => [x]
  | y :: ys => if y ≤ x then x :: y :: ys else y :: insertDesc x ys

/-- Comparator `.sort((a, b) => b.name.localeCompare(a.name))`: sort names in
descending lexicographic order. -/
def sortDesc : List String → List String
  | [] => []
  | x :: xs => insertDesc x (sortDesc xs)

/-- Names of the `releasesRoot` entries that pass the pruning filter. -/
def matchingNames (st : SymlinkState) : List String :=
  (st.entries.filter releaseDirTest).map RemoteEntry.name

/-- Step 5 of `Deployer.run` (symlink strategy, JS): `ln -sfn` repoints
the symlink at the new release, then the listing is filtered to
14-digit directory names, sorted descending, the first `keepReleases`
kept and the rest removed with a recursive `rmdir`. -/
def finalize (st : SymlinkState) (target : String) (keepReleases : Nat) : SymlinkState :=
  let sortedNames := sortDesc (matchingNames st)
  let toRemove := sortedNames.drop keepReleases
  { link := target
    entries := st.entries.filter (fun e => !(toRemove.contains e.name)) }

/-- The finalization of `Deployer.RunSymlinkStrategy` from
`src/NetDeploy/Main/source/Core/Deployer.cs` (lines 91-94): `ln -sfn`
repoints the symlink at the new release and nothing else happens — the
method ends with the placeholder comment
"Cleanup old releases logic would be here", so no release is ever
removed. -/
def finalizeCs (st : SymlinkState) (target : String) : SymlinkState :=
  { link := target
    entries := st.entries }

/-- Steps 3-5 of `Deployer.run` for the symlink strategy: transfer,
then preserve, then finalize.  `transfer` and `preserve` return the
remote state their (possibly partial) effects produced together with
`some error` when they raise; a raise short-circuits the `try` block,
so the swap-and-prune step runs only when both succeed. -/
def runSymlink (transfer preserve : SymlinkState → SymlinkState × Option String)
    (target : String) (keepReleases : Nat) (st : SymlinkState) :
    SymlinkState × Option String :=
  match (transfer st).2 with
  | some e => ((transfer st).1, some e)
  | none =>
    match (preserve (transfer st).1).2 with
    | some e => ((preserve (transfer st).1).1, some e)
    | none => (finalize (preserve (transfer st).1).1 target keepReleases, none)

/-- Finds the `releasesRoot` entry of the given name, as the remote listing
would report it. -/
def lookupEntry (st : SymlinkState) (n : String) : Option RemoteEntry :=
  st.entries.find? (fun e => e.name = n)

/-! ## Lemmas about the batch packer -/

theorem sumSizes_nil : sumSizes [] = 0 := rfl

theorem sumSizes_singleton (f : FileEntry) : sumSizes [f] = f.size := by
  simp [sumSizes]

theorem sumSizes_append_singleton (b : List FileEntry) (f : FileEntry) :
    sumSizes (b ++ [f]) = sumSizes b + f.size := by
  simp [sumSizes]

theorem batchOk_singleton (L : Nat) (f : FileEntry) : batchOk L [f] := by
  by_cases h : f.size ≤ L
  · exact Or.inl (by simpa [sumSizes_singleton] using h)
  · exact Or.inr ⟨f, rfl, Nat.lt_of_not_le h⟩

theorem batchGo_join (L : Nat) (rest : List FileEntry) :
    ∀ (cur : List FileEntry) (sz : Nat),
      (batchGo L rest cur sz).flatten = cur ++ rest := by
  induction rest with
  | nil =>
    intro cur sz
    cases cur <;> simp [batchGo]
  | cons f rest ih =>
    intro cur sz
    simp only [batchGo]
    split
    · simp [ih]
    · simp [ih]

theorem batchGo_bound (L : Nat) (rest : List FileEntry) :
    ∀ (cur : List FileEntry) (sz : Nat),
      sz = sumSizes cur → batchOk L cur →
      ∀ b ∈ batchGo L rest cur sz, batchOk L b := by
  induction rest with
  | nil =>
    intro cur sz _ hok b hb
    simp only [batchGo] at hb
    split at hb
    · simp at hb
    · simp at hb
      subst hb
      exact hok
  | cons f rest ih =>
    intro cur sz hsz hok b hb
    simp only [batchGo] at hb
    split at hb
    · rcases List.mem_cons.mp hb with h | h
      · subst h; exact hok
      · exact ih [f] f.size (sumSizes_singleton f).symm (batchOk_singleton L f) b h
    · rename_i hcond
      have hcur : cur.isEmpty = true ∨ sz + f.size ≤ L := by
        by_cases he : cur.isEmpty = true
        · exact Or.inl he
        · by_cases hle : sz + f.size ≤ L
          · exact Or.inr hle
          · exfalso
            apply hcond
            simp only [Bool.not_eq_true] at he
            simp only [he, Bool.not_false, Bool.true_and, decide_eq_true_eq]
            omega
      have hok' : batchOk L (cur ++ [f]) := by
        rcases hcur with h | h
        · have : cur = [] := List.isEmpty_iff.mp h
          subst this
          simpa using batchOk_singleton L f
        · exact Or.inl (by rw [sumSizes_append_singleton, ← hsz]; exact h)
      exact ih (cur ++ [f]) (sz + f.size)
        (by rw [sumSizes_append_singleton, hsz]) hok' b hb

/-- C10: for every file sequence and every batch size limit, the
concatenation in order of the batches returned by the packer — the JS
`createBatches` and the C# `TarDeployment.CreateBatches` alike — is
exactly the input sequence: no file is dropped, duplicated or
reordered, and each batch is a contiguous sub-sequence of the input. -/
theorem createBatches_concat_eq_input (files : List FileEntry)
    (maxBytes : Int) (limitBytes : Nat) :
    (createBatches files maxBytes).flatten = files ∧
    (createBatchesCs files limitBytes).flatten = files := by
  constructor
  · unfold createBatches
    split
    · simp
    · simpa using batchGo_join _ files [] 0
  · simpa using batchGo_join _ files [] 0

/-- C7: for every batch size limit `M > 0` and every file sequence,
every batch produced by the single-pass greedy packer (JS and C#
variants) has cumulative size at most `M`, except that a batch may
exceed `M` only when it is a single file whose own size exceeds `M`. -/
theorem createBatches_size_bound (files : List FileEntry)
    (maxBytes : Int) (limitBytes : Nat)
    (hM : 0 < maxBytes) (hL : 0 < limitBytes) :
    (∀ b ∈ createBatches files maxBytes, batchOk maxBytes.toNat b) ∧
    (∀ b ∈ createBatchesCs files limitBytes, batchOk limitBytes b) := by
  constructor
  · intro b hb
    unfold createBatches at hb
    rw [if_neg (by omega)] at hb
    exact batchGo_bound _ files [] 0 rfl (Or.inl (by simp [sumSizes_nil])) b hb
  · intro b hb
    exact batchGo_bound _ files [] 0 rfl (Or.inl (by simp [sumSizes_nil])) b hb

/-- The three-file example of the spec (sizes 700000, 700000, 100000). -/
def exampleFiles : List FileEntry := [⟨"f1", 700000⟩, ⟨"f2", 700000⟩, ⟨"f3", 100000⟩]

/-- Witness for C7: the spec example (limit 1 MiB, sizes
700000/700000/100000) satisfies the batch-size bound. -/
theorem createBatches_size_bound_witness :
    (0 : Int) < 1048576 ∧ 0 < 1048576 ∧
    ((∀ b ∈ createBatches exampleFiles 1048576, batchOk (Int.toNat 1048576) b) ∧
     (∀ b ∈ createBatchesCs exampleFiles 1048576, batchOk 1048576 b)) :=
  ⟨by decide, by decide,
   createBatches_size_bound exampleFiles 1048576 1048576 (by decide) (by decide)⟩

/-- C8 counterexample: the C# `TarDeployment.CreateBatches` (one of the
two packers the claim covers) with a zero byte limit does not return a
single batch: two one-byte files yield two batches. -/
theorem createBatchesCs_zero_limit_not_single_batch :
    createBatchesCs [⟨"a", 1⟩, ⟨"b", 1⟩] 0 = [[⟨"a", 1⟩], [⟨"b", 1⟩]] ∧
    (createBatchesCs [⟨"a", 1⟩, ⟨"b", 1⟩] 0).length ≠ 1 := by
  constructor
  · rfl
  · decide

/-- C8 (amended): for every non-empty file sequence, the JS
`createBatches` with a batch size limit of 0 yields exactly one batch
containing every file; the C# packer has no zero-limit special case
and instead starts a new batch at every file once sizes are positive. -/
theorem createBatches_zero_limit_single_batch (files : List FileEntry)
    (h : files ≠ []) :
    createBatches files 0 = [files] := by
  simp [createBatches]

/-- Witness for C8 (amended) at the two-file example. -/
theorem createBatches_zero_limit_single_batch_witness :
    ([⟨"a", 1⟩, ⟨"b", 1⟩] : List FileEntry) ≠ [] ∧
    createBatches [⟨"a", 1⟩, ⟨"b", 1⟩] 0 = [[⟨"a", 1⟩, ⟨"b", 1⟩]] :=
  ⟨by decide, createBatches_zero_limit_single_batch [⟨"a", 1⟩, ⟨"b", 1⟩] (by decide)⟩

/-- C2: the diff engine change set contains exactly those local entries
whose relative path is absent from the remote listing or whose size
differs from the size the listing records for that path, and it is a
sublist of the local walk (local-walk order preserved). -/
theorem getChangedFiles_spec (L : List FileEntry) (R : List (String × Nat)) :
    (∀ f, f ∈ getChangedFiles L (buildRemote R) ↔
       f ∈ L ∧ (buildRemote R f.relPath = none ∨
                ∀ s, buildRemote R f.relPath = some s → s ≠ f.size)) ∧
    (getChangedFiles L (buildRemote R)).Sublist L := by
  constructor
  · intro f
    rw [getChangedFiles, List.mem_filter]
    constructor
    · rintro ⟨hmem, hch⟩
      refine ⟨hmem, ?_⟩
      unfold isChanged at hch
      cases h : buildRemote R f.relPath with
      | none => exact Or.inl rfl
      | some s =>
        rw [h] at hch
        right
        intro s' hs'
        cases hs'
        simpa using hch
    · rintro ⟨hmem, hcond⟩
      refine ⟨hmem, ?_⟩
      unfold isChanged
      cases h : buildRemote R f.relPath with
      | none => rfl
      | some s =>
        rcases hcond with hnone | hdiff
        · rw [h] at hnone
          simp at hnone
        · simpa using hdiff s h
  · exact List.filter_sublist L

/-- C3: evaluation of the `withRetry` loop of
`src/Deploy/src/utils/retry.mjs` at a non-transient failure.  The
message "File not found" does not match the transient-connection
pattern set, yet with the default `retries = 10` the operation is
invoked 11 times and only then does the error propagate: the computed
`isConnectionError` classification is never consulted by the loop.
A transient-matching error behaves identically (2 failures then
success gives 3 invocations), so only the non-transient half of the
claim is violated. -/
theorem withRetry_retries_nonmatching_error :
    isConnectionError "File not found" = false ∧
    withRetry (fun _ => (Except.error "File not found" : Except String Unit)) 10 =
      (Except.error "File not found", 11) ∧
    isConnectionError "ETIMEDOUT" = true ∧
    withRetry (fun i => if i < 2 then Except.error "ETIMEDOUT" else (Except.ok () : Except String Unit)) 10 =
      (Except.ok (), 3) := by
  refine ⟨by decide, rfl, by decide, rfl⟩

/-! ## Lemmas about the preserve step -/

theorem fsLookup_append_left (fs l : List (String × String)) (p c : String)
    (h : fsLookup fs p = some c) : fsLookup (fs ++ l) p = some c := by
  induction fs with
  | nil => simp [fsLookup] at h
  | cons kv rest ih =>
    obtain ⟨q, d⟩ := kv
    simp only [fsLookup, List.cons_append] at *
    split at h
    · rename_i hq
      rw [if_pos hq]
      exact h
    · rename_i hq
      rw [if_neg hq]
      exact ih h

theorem preserveEntryCs_keeps (pd : Option String) (active target : String)
    (fs : List (String × String)) (g p c : String)
    (h : fsLookup fs p = some c) :
    fsLookup (preserveEntryCs pd active target fs g) p = some c := by
  unfold preserveEntryCs
  split
  · exact h
  · split
    · exact h
    · split
      · exact fsLookup_append_left fs _ p c h
      · exact h

theorem preserveRunCs_keeps (pd : Option String) (active target : String)
    (files : List String) :
    ∀ (fs : List (String × String)) (p c : String),
      fsLookup fs p = some c →
      fsLookup (preserveRunCs pd active target files fs) p = some c := by
  induction files with
  | nil => intro fs p c h; exact h
  | cons f rest ih =>
    intro fs p c h
    exact ih _ p c (preserveEntryCs_keeps pd active target fs f p c h)

/-- C5 (amended): in the NetDeploy (C#) preserve step, a destination
path that already exists under the new release is left unchanged by
the entire preserve run (never overwritten), and an entry whose source
exists under neither `preserveDir` nor the active release is a no-op —
the run continues without failing.  The JS implementation instead
overwrites an existing destination (see the counterexample). -/
theorem preserveCs_no_overwrite_and_skip_missing
    (pd : Option String) (active target : String) (files : List String)
    (fs : List (String × String)) (p c f : String)
    (h1 : fsLookup fs p = some c)
    (h2 : sourceFor fs pd active f = none) :
    fsLookup (preserveRunCs pd active target files fs) p = some c ∧
    preserveEntryCs pd active target fs f = fs := by
  constructor
  · exact preserveRunCs_keeps pd active target files fs p c h1
  · unfold preserveEntryCs
    rw [h2]

/-- Example filesystem for the preserve witnesses: the active release
`20240101000000` holds `data.db` with content `v1`; the new release
`20240102000000` already holds `data.db` with content `v0`. -/
def exampleFs : List (String × String) :=
  [("20240101000000/data.db", "v1"), ("20240102000000/data.db", "v0")]

/-- Witness for C5: with an existing destination `data.db` and a
missing source `missing.txt`, the C# preserve run leaves the
destination at `v0` and the missing entry is a no-op. -/
theorem preserveCs_no_overwrite_and_skip_missing_witness :
    fsLookup exampleFs "20240102000000/data.db" = some "v0" ∧
    sourceFor exampleFs none "20240101000000" "missing.txt" = none ∧
    (fsLookup (preserveRunCs none "20240101000000" "20240102000000" ["data.db"] exampleFs)
        "20240102000000/data.db" = some "v0" ∧
     preserveEntryCs none "20240101000000" "20240102000000" exampleFs "missing.txt" = exampleFs) :=
  ⟨by decide, by decide,
   preserveCs_no_overwrite_and_skip_missing none "20240101000000" "20240102000000"
     ["data.db"] exampleFs "20240102000000/data.db" "v0" "missing.txt"
     (by decide) (by decide)⟩

/-- C5 counterexample: the JS preserve step (`cp -rp` via
`src/Deploy/src/core/deployer.mjs`) overwrites an existing destination:
the destination `data.db` of the new release holds `v0` before the
preserve run and `v1` (the source content) after it. -/
theorem preserveJs_overwrites_existing_destination :
    fsLookup exampleFs "20240102000000/data.db" = some "v0" ∧
    fsLookup (preserveRunJs "20240101000000" "20240102000000" ["data.db"] exampleFs)
      "20240102000000/data.db" = some "v1" ∧
    ("v1" : String) ≠ "v0" := by
  refine ⟨rfl, rfl, by decide⟩

/-! ## Lemmas about preserveFiles validation -/

/-- Holds (`true`) iff the `Except` value is an error. -/
def exceptFailed : Except String β → Bool
  | .error _ => true
  | .ok _ => false

theorem validate_error_of_bad :
    ∀ entries : List String,
      (∃ e ∈ entries, strTrim e ≠ "" ∧ entryBad (normalizeEntry e) = true) →
      exceptFailed (normalizeAndValidatePreserveFiles entries) = true := by
  intro entries
  induction entries with
  | nil =>
    rintro ⟨e, he, _⟩
    simp at he
  | cons entry rest ih =>
    rintro ⟨e, he, htrim, hbad⟩
    simp only [normalizeAndValidatePreserveFiles]
    by_cases ht : strTrim entry = ""
    · rw [if_pos ht]
      apply ih
      rcases List.mem_cons.mp he with rfl | hmem
      · exact absurd ht htrim
      · exact ⟨e, hmem, htrim, hbad⟩
    · rw [if_neg ht]
      by_cases h1 : startsWithChar (normalizeEntry entry) '/' = true
      · rw [if_pos h1]; rfl
      · rw [if_neg h1]
        by_cases h2 : containsSub (normalizeEntry entry) ".." = true
        · rw [if_pos h2]; rfl
        · rw [if_neg h2]
          by_cases h3 : (strContains (normalizeEntry entry) '\x0a' ||
              strContains (normalizeEntry entry) '\x0d' ||
              strContains (normalizeEntry entry) '\x00') = true
          · rw [if_pos h3]; rfl
          · rw [if_neg h3]
            have hrest : ∃ e ∈ rest, strTrim e ≠ "" ∧ entryBad (normalizeEntry e) = true := by
              rcases List.mem_cons.mp he with rfl | hmem
              · exfalso
                unfold entryBad at hbad
                simp only [Bool.not_eq_true, Bool.or_eq_true, not_or] at h1 h2 h3
                simp only [Bool.or_eq_true] at hbad
                rcases hbad with ((((hb | hb) | hb) | hb) | hb) <;> simp_all
              · exact ⟨e, hmem, htrim, hbad⟩
            have herr := ih hrest
            cases hv : normalizeAndValidatePreserveFiles rest with
            | ok ps => rw [hv] at herr; simp [exceptFailed] at herr
            | error msg => rfl

theorem validate_ok_of_good :
    ∀ good : List String,
      (∀ e ∈ good, entryBad (normalizeEntry e) = false) →
      normalizeAndValidatePreserveFiles good =
        Except.ok ((good.filter (fun e => !decide (strTrim e = ""))).map normalizeEntry) := by
  intro good
  induction good with
  | nil => intro _; rfl
  | cons entry rest ih =>
    intro h
    have hgood := h entry (List.mem_cons_self entry rest)
    have hrest := ih (fun e he => h e (List.mem_cons_of_mem entry he))
    unfold entryBad at hgood
    simp only [Bool.or_eq_false_iff] at hgood
    obtain ⟨⟨⟨⟨hg1, hg2⟩, hg3⟩, hg4⟩, hg5⟩ := hgood
    simp only [normalizeAndValidatePreserveFiles]
    by_cases ht : strTrim entry = ""
    · rw [if_pos ht, hrest]
      simp [ht]
    · rw [if_neg ht, if_neg (by simp [hg1]), if_neg (by simp [hg2]),
          if_neg (by simp [hg3, hg4, hg5]), hrest]
      simp [ht]

theorem preservePlan_error_of_validate (rd td : String) (pd : Option String)
    (entries : List String)
    (h : exceptFailed (normalizeAndValidatePreserveFiles entries) = true) :
    exceptFailed (preservePlan rd td pd entries) = true := by
  unfold preservePlan
  cases hv : normalizeAndValidatePreserveFiles entries with
  | ok ps => rw [hv] at h; simp [exceptFailed] at h
  | error msg => rfl

theorem listStartsWith_nil_pat (l : List Char) : listStartsWith l [] = true := by
  cases l <;> rfl

theorem listStartsWith_refl : ∀ p : List Char, listStartsWith p p = true
  | [] => rfl
  | c :: cs => by simp [listStartsWith, listStartsWith_refl cs]

theorem listStartsWith_extend :
    ∀ (p l y : List Char), listStartsWith l p = true → listStartsWith (l ++ y) p = true
  | [], l, y, _ => listStartsWith_nil_pat (l ++ y)
  | _ :: _, [], _, h => by simp [listStartsWith] at h
  | q :: ps, c :: cs, y, h => by
    simp only [List.cons_append, listStartsWith, Bool.and_eq_true] at h ⊢
    exact ⟨h.1, listStartsWith_extend ps cs y h.2⟩

theorem listContainsSub_nil_pat (l : List Char) : listContainsSub l [] = true := by
  cases l with
  | nil => rfl
  | cons c cs => simp [listContainsSub, listStartsWith_nil_pat]

theorem listContainsSub_append_right :
    ∀ (l y p : List Char), listContainsSub l p = true → listContainsSub (l ++ y) p = true
  | [], y, p, h => by
    simp only [listContainsSub] at h
    rw [List.isEmpty_iff.mp h]
    exact listContainsSub_nil_pat _
  | c :: cs, y, p, h => by
    simp only [List.cons_append, listContainsSub, Bool.or_eq_true] at h ⊢
    rcases h with h | h
    · exact Or.inl (by simpa using listStartsWith_extend p (c :: cs) y h)
    · exact Or.inr (listContainsSub_append_right cs y p h)

theorem listContainsSub_append_left :
    ∀ (x rest p : List Char), listContainsSub rest p = true → listContainsSub (x ++ rest) p = true
  | [], _, _, h => h
  | c :: cs, rest, p, h => by
    simp only [List.cons_append, listContainsSub, Bool.or_eq_true]
    exact Or.inr (listContainsSub_append_left cs rest p h)

theorem listContainsSub_self : ∀ p : List Char, listContainsSub p p = true
  | [] => rfl
  | c :: cs => by
    simp only [listContainsSub, Bool.or_eq_true]
    exact Or.inl (listStartsWith_refl (c :: cs))

theorem containsSub_append_right (a b f : String) (h : containsSub a f = true) :
    containsSub (a ++ b) f = true := by
  unfold containsSub at *
  rw [String.data_append]
  exact listContainsSub_append_right _ _ _ h

theorem containsSub_append_left (a b f : String) (h : containsSub b f = true) :
    containsSub (a ++ b) f = true := by
  unfold containsSub at *
  rw [String.data_append]
  exact listContainsSub_append_left _ _ _ h

theorem containsSub_refl (f : String) : containsSub f f = true :=
  listContainsSub_self f.data

theorem preserveCommandJs_embeds_paths (src dest : String) :
    containsSub (preserveCommandJs src dest) src = true ∧
    containsSub (preserveCommandJs src dest) dest = true := by
  unfold preserveCommandJs
  constructor
  · exact containsSub_append_right _ _ _ (containsSub_append_right _ _ _
      (containsSub_append_right _ _ _ (containsSub_append_right _ _ _
        (containsSub_append_right _ _ _
          (containsSub_append_left _ _ _ (containsSub_refl src))))))
  · exact containsSub_append_right _ _ _
      (containsSub_append_left _ _ _ (containsSub_refl dest))

/-- C6 (amended): in the NetDeploy (C#) implementation a
`preserveFiles` entry is first trimmed of leading/trailing whitespace
and its backslashes replaced by `/`; if the normalized entry begins
with `/`, contains `..`, or contains an embedded newline, carriage
return or NUL, the run raises a fatal validation error, and the remote
preserve command is never constructed (`preservePlan` errors before
building the script); entries whose normalized form has none of these
features are accepted (whitespace-only entries are silently skipped).
The JS implementation performs no validation at all: for every entry,
whatever characters it contains, the joined source and destination
paths are interpolated into the remote `cp` command it constructs.
As stated the claim fails both for an entry with a trailing newline,
which the C# code trims away and accepts, and for every unsafe entry
of a JS run (see the counterexample). -/
theorem preserve_validation_spec (entries good : List String)
    (rd td : String) (pd : Option String)
    (h1 : ∃ e ∈ entries, strTrim e ≠ "" ∧ entryBad (normalizeEntry e) = true)
    (h2 : ∀ e ∈ good, entryBad (normalizeEntry e) = false) :
    exceptFailed (normalizeAndValidatePreserveFiles entries) = true ∧
    exceptFailed (preservePlan rd td pd entries) = true ∧
    normalizeAndValidatePreserveFiles good =
      Except.ok ((good.filter (fun e => !decide (strTrim e = ""))).map normalizeEntry) ∧
    (∀ src dest, containsSub (preserveCommandJs src dest) src = true ∧
                 containsSub (preserveCommandJs src dest) dest = true) := by
  refine ⟨validate_error_of_bad entries h1, ?_, validate_ok_of_good good h2,
          preserveCommandJs_embeds_paths⟩
  exact preservePlan_error_of_validate rd td pd entries (validate_error_of_bad entries h1)

/-- Witness for C6: a traversal entry is rejected by the C# validation
before the command is built, a clean entry list is accepted and
normalized, and every JS preserve command embeds its raw paths. -/
theorem preserve_validation_spec_witness :
    (∃ e ∈ ["../../etc/passwd"], strTrim e ≠ "" ∧ entryBad (normalizeEntry e) = true) ∧
    (∀ e ∈ ["config/app.db", "  "], entryBad (normalizeEntry e) = false) ∧
    (exceptFailed (normalizeAndValidatePreserveFiles ["../../etc/passwd"]) = true ∧
     exceptFailed (preservePlan "/srv/app" "/srv/app/releases/20240102000000" none
        ["../../etc/passwd"]) = true ∧
     normalizeAndValidatePreserveFiles ["config/app.db", "  "] =
       Except.ok (((["config/app.db", "  "] : List String).filter
         (fun e => !decide (strTrim e = ""))).map normalizeEntry) ∧
     (∀ src dest, containsSub (preserveCommandJs src dest) src = true ∧
                  containsSub (preserveCommandJs src dest) dest = true)) :=
  ⟨by decide, by decide,
   preserve_validation_spec ["../../etc/passwd"] ["config/app.db", "  "]
     "/srv/app" "/srv/app/releases/20240102000000" none (by decide) (by decide)⟩

/-- C6 counterexample: two violations of the claim as stated.  First,
the entry `"a\n"` contains a newline, yet the C# validation accepts it:
`Trim()` removes the trailing newline and the entry is normalized to
`"a"` with no error raised.  Second, the JS preserve step validates
nothing: for the entry `"evil\n.db"` (embedded newline, so the claim
demands a fatal validation error before any remote command or
interaction) the constructed remote command contains the newline and
the copy for the entry is performed without any error. -/
theorem validation_accepts_entry_with_trailing_newline :
    (strContains "a\x0a" '\x0a' = true ∧
     normalizeAndValidatePreserveFiles ["a\x0a"] = Except.ok ["a"]) ∧
    (strContains "evil\x0a.db" '\x0a' = true ∧
     strContains (preserveCommandJs (pathJoin "20240101000000" "evil\x0a.db")
        (pathJoin "20240102000000" "evil\x0a.db")) '\x0a' = true ∧
     preserveRunJs "20240101000000" "20240102000000" ["evil\x0a.db"]
        [(pathJoin "20240101000000" "evil\x0a.db", "v1")] =
       [(pathJoin "20240102000000" "evil\x0a.db", "v1"),
        (pathJoin "20240101000000" "evil\x0a.db", "v1")]) := by
  refine ⟨⟨by decide, by rfl⟩, by decide, by decide, by rfl⟩

/-! ## Lemmas about descending insertion sort -/

theorem insertDesc_perm (x : String) (l : List String) :
    (insertDesc x l).Perm (x :: l) := by
  induction l with
  | nil => exact List.Perm.refl _
  | cons y ys ih =>
    unfold insertDesc
    split
    · exact List.Perm.refl _
    · exact (ih.cons y).trans (List.Perm.swap x y ys)

theorem sortDesc_perm (l : List String) : (sortDesc l).Perm l := by
  induction l with
  | nil => exact List.Perm.refl _
  | cons x xs ih => exact (insertDesc_perm x (sortDesc xs)).trans (ih.cons x)

theorem insertDesc_sorted (x : String) (l : List String)
    (h : l.Pairwise (fun a b => b ≤ a)) :
    (insertDesc x l).Pairwise (fun a b => b ≤ a) := by
  induction l with
  | nil => simp [insertDesc]
  | cons y ys ih =>
    obtain ⟨hy, hys⟩ := List.pairwise_cons.mp h
    unfold insertDesc
    split
    · rename_i hyx
      refine List.pairwise_cons.mpr ⟨?_, h⟩
      intro z hz
      rcases List.mem_cons.mp hz with rfl | hz'
      · exact hyx
      · exact le_trans (hy z hz') hyx
    · rename_i hyx
      refine List.pairwise_cons.mpr ⟨?_, ih hys⟩
      intro z hz
      rcases List.mem_cons.mp ((insertDesc_perm x ys).mem_iff.mp hz) with rfl | hz'
      · exact le_of_not_le hyx
      · exact hy z hz'

theorem sortDesc_sorted (l : List String) :
    (sortDesc l).Pairwise (fun a b => b ≤ a) := by
  induction l with
  | nil => simp [sortDesc]
  | cons x xs ih => exact insertDesc_sorted x (sortDesc xs) ih

theorem contains_eq_false_iff (l : List String) (a : String) :
    (l.contains a = false) ↔ a ∉ l := by
  simp

theorem matchingNames_nodup (st : SymlinkState)
    (hnd : (st.entries.map RemoteEntry.name).Nodup) :
    (matchingNames st).Nodup :=
  hnd.sublist ((List.filter_sublist st.entries).map RemoteEntry.name)

theorem mem_matchingNames (st : SymlinkState) (e : RemoteEntry)
    (he : e ∈ st.entries) (hm : releaseDirTest e = true) :
    e.name ∈ matchingNames st :=
  List.mem_map_of_mem RemoteEntry.name (List.mem_filter.mpr ⟨he, hm⟩)

theorem matchingNames_exists (st : SymlinkState) (n : String)
    (hn : n ∈ matchingNames st) :
    ∃ e ∈ st.entries, releaseDirTest e = true ∧ e.name = n := by
  obtain ⟨e, he, rfl⟩ := List.mem_map.mp hn
  obtain ⟨he1, he2⟩ := List.mem_filter.mp he
  exact ⟨e, he1, he2, rfl⟩

/-- C4 (amended): after a successful symlink-strategy run of the JS
implementation, the symlink resolves to the release created by that
run; its pruning step sorts the 14-digit directory entries of
`releasesRoot` in descending lexicographic name order (a true sorted
permutation), keeps exactly those whose name is among the first
`keepReleases` of that order, removes every other matching entry,
leaves non-matching entries alone, and removes nothing else.  The
NetDeploy (C#) implementation repoints the symlink to the created
release but performs no pruning at all: every existing entry survives
its runs (see the counterexample). -/
theorem finalize_prunes_to_keepReleases (st : SymlinkState) (target : String)
    (keep : Nat) (hnd : (st.entries.map RemoteEntry.name).Nodup) :
    (finalize st target keep).link = target ∧
    (sortDesc (matchingNames st)).Pairwise (fun a b => b ≤ a) ∧
    (sortDesc (matchingNames st)).Perm (matchingNames st) ∧
    (∀ e ∈ st.entries, releaseDirTest e = false →
       e ∈ (finalize st target keep).entries) ∧
    (∀ e ∈ st.entries, releaseDirTest e = true →
       (e ∈ (finalize st target keep).entries ↔
          e.name ∈ (sortDesc (matchingNames st)).take keep)) ∧
    (∀ e ∈ (finalize st target keep).entries, e ∈ st.entries) ∧
    (finalizeCs st target).link = target ∧
    (finalizeCs st target).entries = st.entries := by
  have hsortnd : (sortDesc (matchingNames st)).Nodup :=
    ((sortDesc_perm (matchingNames st)).nodup_iff).mpr (matchingNames_nodup st hnd)
  refine ⟨rfl, sortDesc_sorted _, sortDesc_perm _, ?_, ?_, ?_, rfl, rfl⟩
  · intro e he hm
    refine List.mem_filter.mpr ⟨he, ?_⟩
    rw [Bool.not_eq_eq_eq_not, Bool.not_true, contains_eq_false_iff]
    intro hdrop
    have hnm : e.name ∈ matchingNames st :=
      (sortDesc_perm (matchingNames st)).subset (List.drop_subset _ _ hdrop)
    obtain ⟨e', he', hm', hname⟩ := matchingNames_exists st e.name hnm
    have : e' = e := List.inj_on_of_nodup_map hnd he' he hname
    rw [this] at hm'
    rw [hm'] at hm
    cases hm
  · intro e he hm
    constructor
    · intro hfin
      obtain ⟨-, hcont⟩ := List.mem_filter.mp hfin
      rw [Bool.not_eq_eq_eq_not, Bool.not_true, contains_eq_false_iff] at hcont
      have hnm : e.name ∈ sortDesc (matchingNames st) :=
        (sortDesc_perm (matchingNames st)).mem_iff.mpr (mem_matchingNames st e he hm)
      rcases List.mem_append.mp
          (by rw [List.take_append_drop keep (sortDesc (matchingNames st))]; exact hnm) with
        htake | hdrop
      · exact htake
      · exact absurd hdrop hcont
    · intro htake
      refine List.mem_filter.mpr ⟨he, ?_⟩
      rw [Bool.not_eq_eq_eq_not, Bool.not_true, contains_eq_false_iff]
      intro hdrop
      exact List.disjoint_take_drop hsortnd (le_refl keep) htake hdrop
  · intro e hfin
    exact (List.mem_filter.mp hfin).1

/-- Example state for the pruning witnesses: four timestamped releases,
one non-matching directory, one plain file; the symlink currently
points at release `20240103000000` and the new release is
`20240104000000` (the fourth scenario of the spec). -/
def exampleState : SymlinkState :=
  { link := "20240103000000"
    entries := [⟨"20240101000000", 'd', []⟩, ⟨"20240102000000", 'd', []⟩,
                ⟨"20240103000000", 'd', []⟩, ⟨"20240104000000", 'd', []⟩,
                ⟨"shared", 'd', []⟩, ⟨"notes.txt", '-', []⟩] }

/-- Witness for C4 (amended): the example state with `keepReleases = 2`,
pruned by the JS finalize and left whole by the C# finalize. -/
theorem finalize_prunes_to_keepReleases_witness :
    (exampleState.entries.map RemoteEntry.name).Nodup ∧
    ((finalize exampleState "20240104000000" 2).link = "20240104000000" ∧
     (sortDesc (matchingNames exampleState)).Pairwise (fun a b => b ≤ a) ∧
     (sortDesc (matchingNames exampleState)).Perm (matchingNames exampleState) ∧
     (∀ e ∈ exampleState.entries, releaseDirTest e = false →
        e ∈ (finalize exampleState "20240104000000" 2).entries) ∧
     (∀ e ∈ exampleState.entries, releaseDirTest e = true →
        (e ∈ (finalize exampleState "20240104000000" 2).entries ↔
           e.name ∈ (sortDesc (matchingNames exampleState)).take 2)) ∧
     (∀ e ∈ (finalize exampleState "20240104000000" 2).entries, e ∈ exampleState.entries) ∧
     (finalizeCs exampleState "20240104000000").link = "20240104000000" ∧
     (finalizeCs exampleState "20240104000000").entries = exampleState.entries) :=
  ⟨by decide, finalize_prunes_to_keepReleases exampleState "20240104000000" 2 (by decide)⟩

/-- C4 counterexample: the NetDeploy (C#) `RunSymlinkStrategy` — one of
the two implementations the claim covers — performs no pruning: with
four 14-digit release directories present and `keepReleases = 2`, all
four survive a successful run instead of exactly the first two in
descending name order. -/
theorem finalizeCs_prunes_nothing :
    ((exampleState.entries.filter releaseDirTest).length = 4) ∧
    (((finalizeCs exampleState "20240104000000").entries.filter releaseDirTest).length = 4) ∧
    (4 : Nat) ≠ 2 := by
  refine ⟨by decide, by decide, by decide⟩

/-- C9: a symlink-strategy run with `keepReleases ≥ 1` whose existing
release names all lexicographically precede the name of the release it
just created never prunes that release: the newly created entry
survives the finalize step. -/
theorem created_release_survives_pruning (st : SymlinkState) (target : String)
    (e0 : RemoteEntry) (keep : Nat)
    (hk : 1 ≤ keep)
    (he0 : e0 ∈ st.entries)
    (hmatch : releaseDirTest e0 = true)
    (hmax : ∀ e ∈ st.entries, releaseDirTest e = true → e.name ≠ e0.name → e.name < e0.name)
    (hnd : (st.entries.map RemoteEntry.name).Nodup) :
    e0 ∈ (finalize st target keep).entries := by
  have hsortnd : (sortDesc (matchingNames st)).Nodup :=
    ((sortDesc_perm (matchingNames st)).nodup_iff).mpr (matchingNames_nodup st hnd)
  refine List.mem_filter.mpr ⟨he0, ?_⟩
  rw [Bool.not_eq_eq_eq_not, Bool.not_true, contains_eq_false_iff]
  intro hdrop
  cases hS : sortDesc (matchingNames st) with
  | nil => rw [hS] at hdrop; simp at hdrop
  | cons hd tl =>
    rw [hS] at hdrop
    obtain ⟨k, rfl⟩ := Nat.exists_eq_add_of_le hk
    rw [Nat.add_comm, List.drop_succ_cons] at hdrop
    have htl : e0.name ∈ tl := List.drop_subset k tl hdrop
    have hsorted := sortDesc_sorted (matchingNames st)
    rw [hS] at hsorted
    obtain ⟨hhd, -⟩ := List.pairwise_cons.mp hsorted
    have hle : e0.name ≤ hd := hhd e0.name htl
    have hhdmem : hd ∈ matchingNames st :=
      (sortDesc_perm (matchingNames st)).subset (by rw [hS]; exact List.mem_cons_self hd tl)
    obtain ⟨e', he', hm', hname⟩ := matchingNames_exists st hd hhdmem
    by_cases heq : hd = e0.name
    · rw [hS] at hsortnd
      obtain ⟨hnotmem, -⟩ := List.nodup_cons.mp hsortnd
      rw [heq] at hnotmem
      exact hnotmem htl
    · have : e'.name < e0.name := hmax e' he' hm' (by rw [hname]; exact heq)
      rw [hname] at this
      exact absurd hle (not_le_of_lt this)

/-- Witness for C9: with `keepReleases = 2` and older releases
`20240101000000`-`20240103000000`, the just-created `20240104000000`
survives pruning. -/
theorem created_release_survives_pruning_witness :
    1 ≤ 2 ∧
    (⟨"20240104000000", 'd', []⟩ : RemoteEntry) ∈ exampleState.entries ∧
    releaseDirTest ⟨"20240104000000", 'd', []⟩ = true ∧
    (∀ e ∈ exampleState.entries, releaseDirTest e = true →
       e.name ≠ "20240104000000" → e.name < "20240104000000") ∧
    (exampleState.entries.map RemoteEntry.name).Nodup ∧
    (⟨"20240104000000", 'd', []⟩ : RemoteEntry) ∈
      (finalize exampleState "20240104000000" 2).entries :=
  ⟨by decide, by decide, by decide,
   (by
     intro e he h1 h2
     fin_cases he <;>
       first
         | exact absurd h1 (by decide)
         | exact absurd rfl h2
         | (rw [String.lt_iff_toList_lt]; decide)),
   by decide,
   created_release_survives_pruning exampleState "20240104000000"
     ⟨"20240104000000", 'd', []⟩ 2 (by decide) (by decide) (by decide)
     (by
       intro e he h1 h2
       fin_cases he <;>
         first
           | exact absurd h1 (by decide)
           | exact absurd rfl h2
           | (rw [String.lt_iff_toList_lt]; decide))
     (by decide)⟩

/-- C1: if the transfer step or the preserve step of a symlink-strategy
run raises an error, the run aborts before the symlink swap: provided
transfer and preserve only touch the new release directory (they never
repoint the symlink and never modify any other release), the failed run
leaves the symlink resolving to the same release as at the start of the
run, with that release listed unchanged. -/
theorem failed_run_leaves_active_release
    (transfer preserve : SymlinkState → SymlinkState × Option String)
    (target : String) (keep : Nat) (st : SymlinkState)
    (hT : ∀ s, (transfer s).1.link = s.link ∧
          ∀ n, n ≠ target → lookupEntry (transfer s).1 n = lookupEntry s n)
    (hP : ∀ s, (preserve s).1.link = s.link ∧
          ∀ n, n ≠ target → lookupEntry (preserve s).1 n = lookupEntry s n)
    (hactive : st.link ≠ target)
    (hfail : (runSymlink transfer preserve target keep st).2 ≠ none) :
    (runSymlink transfer preserve target keep st).1.link = st.link ∧
    lookupEntry (runSymlink transfer preserve target keep st).1 st.link =
      lookupEntry st st.link := by
  unfold runSymlink at hfail ⊢
  cases htr : (transfer st).2 with
  | some err =>
    exact ⟨(hT st).1, (hT st).2 st.link hactive⟩
  | none =>
    cases hpr : (preserve (transfer st).1).2 with
    | some err =>
      exact ⟨((hP (transfer st).1).1).trans (hT st).1,
             ((hP (transfer st).1).2 st.link hactive).trans ((hT st).2 st.link hactive)⟩
    | none =>
      rw [htr, hpr] at hfail
      exact absurd rfl hfail

/-- Example state for the C1 witness: the active release
`20240101000000` holds one file. -/
def exampleStateActive : SymlinkState :=
  { link := "20240101000000"
    entries := [⟨"20240101000000", 'd', [("data.db", "v1")]⟩] }

/-- Witness for C1: a transfer step that raises `write ECONNRESET`
without touching the remote state leaves the active release live and
unchanged. -/
theorem failed_run_leaves_active_release_witness :
    (runSymlink (fun s => (s, some "write ECONNRESET")) (fun s => (s, none))
        "20240102000000" 2 exampleStateActive).1.link = exampleStateActive.link ∧
    lookupEntry (runSymlink (fun s => (s, some "write ECONNRESET")) (fun s => (s, none))
        "20240102000000" 2 exampleStateActive).1 exampleStateActive.link =
      lookupEntry exampleStateActive exampleStateActive.link :=
  failed_run_leaves_active_release
    (fun s => (s, some "write ECONNRESET")) (fun s => (s, none))
    "20240102000000" 2 exampleStateActive
    (fun _ => ⟨rfl, fun _ _ => rfl⟩) (fun _ => ⟨rfl, fun _ _ => rfl⟩)
    (by decide) (by decide)

end WebDevTools
